import Mathlib

/-!
Shallow embedding of the `rush` shell's lexer (`rush-lexer/src/lib.rs`,
`rush-lexer/src/token.rs`), parser (`rush-parser/src/lib.rs`,
`rush-parser/src/ast.rs`, `rush-parser/src/result.rs`) and runner
(`rush-runner/src/lib.rs`), together with theorems about the frozen claims.

Conventions used throughout:
* Rust `usize` byte positions become `Nat`; character byte widths use
  `Char.utf8Size`, matching `char_indices` / `len_utf8` in the source.
* A source string is a `List Char`; `byteLen` is `str.len()` in bytes.
* Fallible code returns `Except`; recursion whose Rust original is an
  unbounded loop is given explicit fuel (an `outOfFuel` error marks fuel
  exhaustion, an artifact of the embedding that never replaces a real
  result: with any fuel, a returned `.ok`/source error is the source's).
-/

namespace Rush

/-- `TokenKind` from `rush-lexer/src/token.rs`. -/
inductive TokenKind where
  | atom
  | pipe
  | semi
  | ampersand
  | eof
deriving DecidableEq, Repr

/-- `Span` from `rush-lexer/src/token.rs`: a half-open byte range.
The source field `end` is a Lean keyword and is called `stop` here. -/
structure Span where
  start : Nat
  stop : Nat
deriving DecidableEq, Repr

/-- `Token` from `rush-lexer/src/token.rs`: a `(kind, span)` pair. -/
structure Token where
  kind : TokenKind
  span : Span
deriving DecidableEq, Repr

/-- `Span::slice`: `&source[start..end]`. Resolved here via the byte
position of every character of the source (exact for spans that lie on
character boundaries, which is all the lexer produces). -/
def charIndices : List Char → Nat → List (Nat × Char)
  | [], _ => []
  | c :: cs, i => (i, c) :: charIndices cs (i + c.utf8Size)

/-- Byte length of the source, `str::len`. -/
def byteLen (source : List Char) : Nat := (source.map Char.utf8Size).sum

def Span.slice (sp : Span) (source : List Char) : List Char :=
  ((charIndices source 0).filter (fun p => sp.start ≤ p.1 && p.1 < sp.stop)).map Prod.snd

/-- `is_space` from `rush-lexer/src/lib.rs`. -/
def is_space (ch : Char) : Bool :=
  ch = ' ' || ch = '\t' || ch = '\n' || ch = '\r'

/-- `is_delimiter` from `rush-lexer/src/lib.rs`. -/
def is_delimiter (ch : Char) : Bool :=
  is_space ch || ch = '|' || ch = ';'

/-- `Lexer::take_while` from `rush-lexer/src/lib.rs`, on the remaining
`(byte_pos, char)` pairs of the peekable iterator: consume while `f`
holds, remembering the last consumed pair; the first component is the
final value of `last`, the second the unconsumed rest. -/
def takeWhileAux (f : Char → Bool) :
    List (Nat × Char) → Option (Nat × Char) → Option (Nat × Char) × List (Nat × Char)
  | [], last => (last, [])
  | (i, ch) :: rest, last =>
    if f ch then takeWhileAux f rest (some (i, ch))
    else (last, (i, ch) :: rest)

theorem takeWhileAux_length_le (f : Char → Bool) :
    ∀ (l : List (Nat × Char)) (last : Option (Nat × Char)),
      (takeWhileAux f l last).2.length ≤ l.length := by
  intro l
  induction l with
  | nil => intro last; simp [takeWhileAux]
  | cons p rest ih =>
    intro last
    obtain ⟨i, ch⟩ := p
    by_cases h : f ch = true
    · simpa [takeWhileAux, h] using Nat.le_succ_of_le (ih (some (i, ch)))
    · simp [takeWhileAux, h]

/-- `Lexer::take_atom` from `rush-lexer/src/lib.rs`: the atom starts at
`start` (the already-consumed character) and ends after the last further
character satisfying `!is_delimiter`; when no further character was
consumed the source's `take_while` falls back to `source.len()`. -/
def takeAtom (source : List Char) (start : Nat) (chars : List (Nat × Char)) :
    Token × List (Nat × Char) :=
  let r := takeWhileAux (fun c => !is_delimiter c) chars none
  let stop := match r.1 with
    | some (i, ch) => i + ch.utf8Size
    | none => byteLen source
  (⟨.atom, ⟨start, stop⟩⟩, r.2)

/-- The loop body of `Lexer::lex`: `|` and `;` become zero-length
operator tokens, anything else starts an atom. (The peeked `next`
character in the source match is never inspected by any arm.) The `fuel`
argument bounds the number of iterations of the source's `while let`
loop; every iteration consumes at least the current character, so fuel
equal to the remaining character count is exact (`lexLoop_fuel` below
proves the fuel irrelevant from that point on). -/
def lexLoop (source : List Char) : Nat → List (Nat × Char) → List Token
  | _, [] => []
  | 0, _ :: _ => []
  | fuel + 1, (bytePos, curr) :: rest =>
    if curr = '|' then ⟨.pipe, ⟨bytePos, bytePos⟩⟩ :: lexLoop source fuel rest
    else if curr = ';' then ⟨.semi, ⟨bytePos, bytePos⟩⟩ :: lexLoop source fuel rest
    else (takeAtom source bytePos rest).1 :: lexLoop source fuel (takeAtom source bytePos rest).2

theorem lexLoop_nil (source : List Char) (fuel : Nat) : lexLoop source fuel [] = [] := by
  cases fuel <;> rfl

/-- The fuel does not matter once it is at least the number of remaining
characters: `lexLoop` with fuel `chars.length` is the source's loop. -/
theorem lexLoop_fuel (source : List Char) :
    ∀ (f1 f2 : Nat) (chars : List (Nat × Char)),
      chars.length ≤ f1 → chars.length ≤ f2 →
      lexLoop source f1 chars = lexLoop source f2 chars := by
  intro f1
  induction f1 with
  | zero =>
    intro f2 chars h1 _
    have : chars = [] := List.length_eq_zero.mp (Nat.le_zero.mp h1)
    subst this
    simp [lexLoop_nil]
  | succ f1 ih =>
    intro f2 chars h1 h2
    cases chars with
    | nil => simp [lexLoop_nil]
    | cons p rest =>
      obtain ⟨bytePos, curr⟩ := p
      cases f2 with
      | zero => simp at h2
      | succ f2 =>
        simp only [List.length_cons, Nat.succ_le_succ_iff] at h1 h2
        have hAtom :=
          takeWhileAux_length_le (fun c => !is_delimiter c) rest none
        simp only [lexLoop]
        split_ifs
        · rw [ih f2 rest h1 h2]
        · rw [ih f2 rest h1 h2]
        · rw [ih f2 (takeAtom source bytePos rest).2
            (Nat.le_trans hAtom h1) (Nat.le_trans hAtom h2)]

/-- `Lexer::lex` from `rush-lexer/src/lib.rs`: empty sources return an
empty token list at once; otherwise the loop's tokens followed by a
single `Eof` token at `source.len()`. -/
def lex (source : List Char) : List Token :=
  if source = [] then []
  else
    lexLoop source (charIndices source 0).length (charIndices source 0)
      ++ [⟨.eof, ⟨byteLen source, byteLen source⟩⟩]

/-- Every token the lexer loop emits is a `Pipe`, `Semi` or `Atom`:
the loop never constructs an `Ampersand` or `Eof` token. -/
theorem lexLoop_kinds (source : List Char) :
    ∀ (fuel : Nat) (chars : List (Nat × Char)) (t : Token),
      t ∈ lexLoop source fuel chars →
      t.kind = TokenKind.pipe ∨ t.kind = TokenKind.semi ∨ t.kind = TokenKind.atom := by
  intro fuel
  induction fuel with
  | zero =>
    intro chars t ht
    cases chars <;> simp [lexLoop] at ht
  | succ fuel ih =>
    intro chars t ht
    cases chars with
    | nil => simp [lexLoop] at ht
    | cons p rest =>
      obtain ⟨bytePos, curr⟩ := p
      simp only [lexLoop] at ht
      split_ifs at ht <;> rcases List.mem_cons.mp ht with h | h
      · left; rw [h]
      · exact ih rest t h
      · right; left; rw [h]
      · exact ih rest t h
      · right; right; rw [h, takeAtom]
      · exact ih _ t h

/-- `TokenStream` from `rush-lexer/src/token.rs`, with the cursor already
applied: `tokens` is the not-yet-consumed part; `eofPos` is the position
used for the `Eof` tokens synthesized past the end. -/
structure TokenStream where
  tokens : List Token
  eofPos : Nat
deriving DecidableEq, Repr

def TokenStream.eofToken (ts : TokenStream) : Token :=
  ⟨.eof, ⟨ts.eofPos, ts.eofPos⟩⟩

/-- `TokenStream::peek`. -/
def TokenStream.peek (ts : TokenStream) : TokenKind :=
  (ts.tokens.head?.getD ts.eofToken).kind

/-- `TokenStream::next_token` (and `next`, via `.kind`). -/
def TokenStream.nextToken (ts : TokenStream) : Token × TokenStream :=
  match ts.tokens with
  | [] => (ts.eofToken, ts)
  | t :: rest => (t, { ts with tokens := rest })

/-- The stream the shell builds from a lexed line. -/
def lexStream (source : List Char) : TokenStream :=
  ⟨lex source, byteLen source⟩

/-- `Error` from `rush-parser/src/result.rs` (`outOfFuel` is the fuel
artifact described in the header, not a source variant). -/
inductive PError where
  | unexpectedEof
  | expectedCommand (kind : TokenKind)
  | unexpectedToken (kind : TokenKind)
  | emptyCommand
  | outOfFuel
deriving DecidableEq, Repr

/-- `SimpleCommand` from `rush-parser/src/ast.rs`. -/
structure SimpleCommand where
  program : Span
  args : List Span
deriving DecidableEq, Repr

/-- `Ast` from `rush-parser/src/ast.rs`. -/
inductive Ast where
  | command (cmd : SimpleCommand)
  | pipeline (cmds : List SimpleCommand)
  | backgroundJob (inner : Ast)
  | sequence (elems : List Ast)

/-- `Ast::into_command` from `rush-parser/src/ast.rs`. -/
def Ast.intoCommand : Ast → Except PError SimpleCommand
  | .command cmd => .ok cmd
  | _ => .error (.expectedCommand .atom)

/-- `BindingPower::operator_binding_power` from `rush-parser/src/lib.rs`
(SEQUENCE = 10, BACKGROUND = 20, PIPELINE = 30). -/
def operatorBindingPower : TokenKind → Option Nat
  | .semi => some 10
  | .ampersand => some 20
  | .pipe => some 30
  | _ => none

/-- The argument-collecting loop of `Parser::parse_command`: consume
tokens while the peeked kind is `Atom`, collecting their spans. -/
def takeArgsList : List Token → List Span × List Token
  | [] => ([], [])
  | t :: rest =>
    if t.kind = TokenKind.atom then
      (t.span :: (takeArgsList rest).1, (takeArgsList rest).2)
    else ([], t :: rest)

/-- `Parser::parse_command` from `rush-parser/src/lib.rs`. -/
def parseCommand (ts : TokenStream) : Except PError (SimpleCommand × TokenStream) :=
  let r := ts.nextToken
  match r.1.kind with
  | .atom =>
    let a := takeArgsList r.2.tokens
    .ok (⟨r.1.span, a.1⟩, { r.2 with tokens := a.2 })
  | .eof => .error .unexpectedEof
  | other => .error (.expectedCommand other)

/-- `Parser::parse_primary` from `rush-parser/src/lib.rs`. -/
def parsePrimary (ts : TokenStream) : Except PError (Ast × TokenStream) :=
  match ts.peek with
  | .atom =>
    match parseCommand ts with
    | .ok (cmd, ts1) => .ok (.command cmd, ts1)
    | .error e => .error e
  | .eof => .error .unexpectedEof
  | other => .error (.expectedCommand other)

/-- The two mutually recursive pieces of `Parser::parse_expression`:
`expr ts minBp` is a call of `parse_expression` itself, `loop left ts
minBp` is an iteration of its `while let` operator loop with the current
`left` operand. Folding the mutual recursion over one call type keeps
the recursion structural in the fuel. -/
inductive ParseCall where
  | expr (ts : TokenStream) (minBp : Nat)
  | loop (left : Ast) (ts : TokenStream) (minBp : Nat)

/-- `Parser::parse_expression` from `rush-parser/src/lib.rs`, fuel-bounded:
a `.expr` call parses a primary and enters the loop; a `.loop` call stops
when the peeked token is not an operator or its binding power is below
`minBp` (strict `<`), and otherwise consumes the operator and dispatches
exactly as the source's `match tokens.next()`. -/
def parseGo : Nat → ParseCall → Except PError (Ast × TokenStream)
  | 0, _ => .error .outOfFuel
  | f + 1, .expr ts minBp =>
    match parsePrimary ts with
    | .error e => .error e
    | .ok (left, ts1) => parseGo f (.loop left ts1 minBp)
  | f + 1, .loop left ts minBp =>
    match operatorBindingPower ts.peek with
    | none => .ok (left, ts)
    | some bp =>
      if bp < minBp then .ok (left, ts)
      else
        let r := ts.nextToken
        match r.1.kind, left with
        | .semi, .sequence seq =>
          match parseGo f (.expr r.2 bp) with
          | .error e => .error e
          | .ok (right, ts2) => parseGo f (.loop (.sequence (seq ++ [right])) ts2 minBp)
        | .semi, _ =>
          match parseGo f (.expr r.2 bp) with
          | .error e => .error e
          | .ok (right, ts2) => parseGo f (.loop (.sequence [left, right]) ts2 minBp)
        | .ampersand, _ => parseGo f (.loop (.backgroundJob left) r.2 minBp)
        | .pipe, .pipeline cmds =>
          match parseGo f (.expr r.2 bp) with
          | .error e => .error e
          | .ok (right, ts2) =>
            match right.intoCommand with
            | .error e => .error e
            | .ok rightCmd => parseGo f (.loop (.pipeline (cmds ++ [rightCmd])) ts2 minBp)
        | .pipe, _ =>
          match parseGo f (.expr r.2 bp) with
          | .error e => .error e
          | .ok (right, ts2) =>
            match left.intoCommand with
            | .error e => .error e
            | .ok leftCmd =>
              match right.intoCommand with
              | .error e => .error e
              | .ok rightCmd => parseGo f (.loop (.pipeline [leftCmd, rightCmd]) ts2 minBp)
        | k, _ => .error (.unexpectedToken k)

/-- `Parser::parse`: `parse_expression` at `BindingPower::MIN = 0`. The
fuel `2 * length + 2` decrements at most once per consumed token per
layer and is generous for every stream; success theorems below are in
any case proven for every fuel. -/
def parse (ts : TokenStream) : Except PError Ast :=
  match parseGo (2 * ts.tokens.length + 2) (.expr ts 0) with
  | .ok (ast, _) => .ok ast
  | .error e => .error e

end Rush

namespace Rush

/-! ### Predicates on command trees and token lists used by the claims -/

/-- Is the root of the tree a `BackgroundJob` node? -/
def isBJ : Ast → Bool
  | .backgroundJob _ => true
  | _ => false

mutual

/-- No `BackgroundJob` node anywhere in the tree has another
`BackgroundJob` node as its immediate child. -/
def noNestedBJ : Ast → Bool
  | .command _ => true
  | .pipeline _ => true
  | .backgroundJob inner => !isBJ inner && noNestedBJ inner
  | .sequence elems => noNestedBJList elems

def noNestedBJList : List Ast → Bool
  | [] => true
  | a :: rest => noNestedBJ a && noNestedBJList rest

end

mutual

/-- The tree contains no `BackgroundJob` node at all. -/
def noBJ : Ast → Bool
  | .command _ => true
  | .pipeline _ => true
  | .backgroundJob _ => false
  | .sequence elems => noBJList elems

def noBJList : List Ast → Bool
  | [] => true
  | a :: rest => noBJ a && noBJList rest

end

/-- No `Ampersand` token is immediately followed by another `Ampersand`
token. -/
def noAdjAmps : List Token → Bool
  | [] => true
  | [_] => true
  | a :: b :: rest =>
    !(a.kind = TokenKind.ampersand && b.kind = TokenKind.ampersand) && noAdjAmps (b :: rest)

theorem noNestedBJList_append (l : List Ast) (a : Ast) :
    noNestedBJList (l ++ [a]) = (noNestedBJList l && noNestedBJ a) := by
  induction l with
  | nil => simp [noNestedBJList]
  | cons x rest ih => simp [noNestedBJList, ih, Bool.and_assoc]

theorem noBJList_append (l : List Ast) (a : Ast) :
    noBJList (l ++ [a]) = (noBJList l && noBJ a) := by
  induction l with
  | nil => simp [noBJList]
  | cons x rest ih => simp [noBJList, ih, Bool.and_assoc]

theorem noAdjAmps_tail (x : Token) (xs : List Token) (h : noAdjAmps (x :: xs) = true) :
    noAdjAmps xs = true := by
  cases xs with
  | nil => rfl
  | cons y ys =>
    rw [noAdjAmps, Bool.and_eq_true] at h
    exact h.2

theorem noAdjAmps_drop :
    ∀ (n : Nat) (l : List Token), noAdjAmps l = true → noAdjAmps (l.drop n) = true := by
  intro n
  induction n with
  | zero => intro l h; simpa using h
  | succ n ih =>
    intro l h
    cases l with
    | nil => rfl
    | cons x xs => exact ih xs (noAdjAmps_tail x xs h)

theorem noAdjAmps_pair (a b : Token) (rest : List Token)
    (h : noAdjAmps (a :: b :: rest) = true) (ha : a.kind = TokenKind.ampersand) :
    b.kind ≠ TokenKind.ampersand := by
  intro hb
  simp [noAdjAmps, ha, hb] at h

/-! ### Facts about the token stream and the parser's stream threading -/

theorem peek_cons (ts : TokenStream) (t : Token) (rest : List Token)
    (h : ts.tokens = t :: rest) : ts.peek = t.kind := by
  simp [TokenStream.peek, h]

theorem peek_nil (ts : TokenStream) (h : ts.tokens = []) : ts.peek = TokenKind.eof := by
  simp [TokenStream.peek, h, TokenStream.eofToken]

theorem nextToken_cons (ts : TokenStream) (t : Token) (rest : List Token)
    (h : ts.tokens = t :: rest) : ts.nextToken = (t, ⟨rest, ts.eofPos⟩) := by
  simp [TokenStream.nextToken, h]

theorem nextToken_nil (ts : TokenStream) (h : ts.tokens = []) :
    ts.nextToken = (ts.eofToken, ts) := by
  simp [TokenStream.nextToken, h]

/-- If a token kind has a binding power, it is one of the three
operators. -/
theorem operatorBindingPower_some (k : TokenKind) (bp : Nat)
    (h : operatorBindingPower k = some bp) :
    k = TokenKind.semi ∨ k = TokenKind.ampersand ∨ k = TokenKind.pipe := by
  cases k <;> simp_all [operatorBindingPower]

theorem takeArgsList_drop (l : List Token) : ∃ n, (takeArgsList l).2 = l.drop n := by
  induction l with
  | nil => exact ⟨0, rfl⟩
  | cons t rest ih =>
    by_cases h : t.kind = TokenKind.atom
    · obtain ⟨n, hn⟩ := ih
      exact ⟨n + 1, by simp [takeArgsList, h, hn]⟩
    · exact ⟨0, by simp [takeArgsList, h]⟩

theorem parseCommand_drop (ts : TokenStream) (cmd : SimpleCommand) (ts' : TokenStream)
    (h : parseCommand ts = .ok (cmd, ts')) : ∃ n, ts'.tokens = ts.tokens.drop n := by
  cases hts : ts.tokens with
  | nil =>
    rw [parseCommand, nextToken_nil ts hts] at h
    simp [TokenStream.eofToken] at h
  | cons t rest =>
    rw [parseCommand, nextToken_cons ts t rest hts] at h
    cases hk : t.kind <;> simp [hk] at h
    obtain ⟨n, hn⟩ := takeArgsList_drop rest
    obtain ⟨h1, h2⟩ := h
    refine ⟨n + 1, ?_⟩
    rw [← h2]
    simpa using hn

theorem parsePrimary_ok (ts : TokenStream) (a : Ast) (ts' : TokenStream)
    (h : parsePrimary ts = .ok (a, ts')) :
    (∃ cmd, a = Ast.command cmd) ∧ ∃ n, ts'.tokens = ts.tokens.drop n := by
  unfold parsePrimary at h
  cases hk : ts.peek <;> rw [hk] at h
  case atom =>
    cases hc : parseCommand ts with
    | error e => rw [hc] at h; simp at h
    | ok v =>
      obtain ⟨cmd, ts1⟩ := v
      rw [hc] at h
      simp at h
      obtain ⟨h1, h2⟩ := h
      exact ⟨⟨cmd, h1.symm⟩, by rw [← h2]; exact parseCommand_drop ts cmd ts1 hc⟩
  all_goals simp at h

/-- The token stream a `ParseCall` operates on. -/
def ParseCall.stream : ParseCall → TokenStream
  | .expr ts _ => ts
  | .loop _ ts _ => ts

theorem drop_chain {l1 l2 l3 : List Token} (n1 n2 : Nat)
    (h1 : l2 = l1.drop n1) (h2 : l3 = l2.drop n2) : ∃ n, l3 = l1.drop n :=
  ⟨n2 + n1, by rw [h2, h1, List.drop_drop, Nat.add_comm]⟩


/-- The parser only ever consumes tokens: a successful `parseGo` call
returns a stream whose tokens are a drop of the input stream's tokens. -/
theorem parseGo_drop :
    ∀ (fuel : Nat) (call : ParseCall) (a : Ast) (ts' : TokenStream),
      parseGo fuel call = .ok (a, ts') →
      ∃ n, ts'.tokens = call.stream.tokens.drop n := by
  intro fuel
  induction fuel with
  | zero => intro call a ts' h; simp [parseGo] at h
  | succ f ih =>
    intro call a ts' h
    cases call with
    | expr ts minBp =>
      rw [parseGo] at h
      split at h
      · simp at h
      · rename_i left ts1 heq
        obtain ⟨-, n1, hn1⟩ := parsePrimary_ok ts left ts1 heq
        obtain ⟨n2, hn2⟩ := ih (.loop left ts1 minBp) a ts' h
        exact drop_chain n1 n2 hn1 hn2
    | loop left ts minBp =>
      simp only [ParseCall.stream]
      rw [parseGo] at h
      split at h
      · simp at h
        exact ⟨0, by rw [← h.2, List.drop_zero]⟩
      · rename_i bp hbp
        split at h
        · simp at h
          exact ⟨0, by rw [← h.2, List.drop_zero]⟩
        · cases hts : ts.tokens with
          | nil => rw [peek_nil ts hts] at hbp; simp [operatorBindingPower] at hbp
          | cons t rest =>
            simp only [nextToken_cons ts t rest hts] at h
            split at h
            any_goals simp at h
            -- semi with left a sequence
            · split at h
              · simp at h
              · rename_i right ts2 hexpr
                obtain ⟨n1, hn1⟩ := ih (.expr ⟨rest, ts.eofPos⟩ bp) right ts2 hexpr
                obtain ⟨n2, hn2⟩ := ih _ a ts' h
                simp only [ParseCall.stream] at hn1 hn2
                obtain ⟨n3, hn3⟩ := drop_chain n1 n2 hn1 hn2
                exact ⟨n3 + 1, by rw [List.drop_succ_cons]; exact hn3⟩
            -- semi with any other left
            · split at h
              · simp at h
              · rename_i right ts2 hexpr
                obtain ⟨n1, hn1⟩ := ih (.expr ⟨rest, ts.eofPos⟩ bp) right ts2 hexpr
                obtain ⟨n2, hn2⟩ := ih _ a ts' h
                simp only [ParseCall.stream] at hn1 hn2
                obtain ⟨n3, hn3⟩ := drop_chain n1 n2 hn1 hn2
                exact ⟨n3 + 1, by rw [List.drop_succ_cons]; exact hn3⟩
            -- ampersand
            · obtain ⟨n2, hn2⟩ := ih _ a ts' h
              simp only [ParseCall.stream] at hn2
              exact ⟨n2 + 1, by rw [List.drop_succ_cons]; exact hn2⟩
            -- pipe with left a pipeline
            · split at h
              · simp at h
              · rename_i right ts2 hexpr
                split at h
                · simp at h
                · rename_i rightCmd hic
                  obtain ⟨n1, hn1⟩ := ih (.expr ⟨rest, ts.eofPos⟩ bp) right ts2 hexpr
                  obtain ⟨n2, hn2⟩ := ih _ a ts' h
                  simp only [ParseCall.stream] at hn1 hn2
                  obtain ⟨n3, hn3⟩ := drop_chain n1 n2 hn1 hn2
                  exact ⟨n3 + 1, by rw [List.drop_succ_cons]; exact hn3⟩
            -- pipe with any other left
            · split at h
              · simp at h
              · rename_i right ts2 hexpr
                split at h
                · simp at h
                · rename_i leftCmd hlc
                  split at h
                  · simp at h
                  · rename_i rightCmd hrc
                    obtain ⟨n1, hn1⟩ := ih (.expr ⟨rest, ts.eofPos⟩ bp) right ts2 hexpr
                    obtain ⟨n2, hn2⟩ := ih _ a ts' h
                    simp only [ParseCall.stream] at hn1 hn2
                    obtain ⟨n3, hn3⟩ := drop_chain n1 n2 hn1 hn2
                    exact ⟨n3 + 1, by rw [List.drop_succ_cons]; exact hn3⟩

/-- Transport of `noAdjAmps` across a successful parse step. -/
theorem parseGo_noAdjAmps (fuel : Nat) (call : ParseCall) (a : Ast) (ts' : TokenStream)
    (hadj : noAdjAmps call.stream.tokens = true)
    (h : parseGo fuel call = .ok (a, ts')) : noAdjAmps ts'.tokens = true := by
  obtain ⟨n, hn⟩ := parseGo_drop fuel call a ts' h
  rw [hn]
  exact noAdjAmps_drop n _ hadj

/-- The token list contains no `Ampersand` token at all. -/
def noAmpTokens (l : List Token) : Prop := ∀ t ∈ l, t.kind ≠ TokenKind.ampersand

theorem noAmpTokens_drop (n : Nat) (l : List Token) (h : noAmpTokens l) :
    noAmpTokens (l.drop n) :=
  fun t ht => h t (List.drop_subset n l ht)

/-- Invariant carried by `parseGo` while proving that no directly nested
`BackgroundJob` is ever built from a stream without adjacent `Ampersand`
tokens: the current left operand is nesting-free, and whenever it is
itself a `BackgroundJob` the next peeked token is not an `Ampersand`. -/
def nestedInv : ParseCall → Prop
  | .expr ts _ => noAdjAmps ts.tokens = true
  | .loop left ts _ =>
      noAdjAmps ts.tokens = true ∧ noNestedBJ left = true ∧
      (isBJ left = true → ts.peek ≠ TokenKind.ampersand)

theorem parseGo_noNestedBJ :
    ∀ (fuel : Nat) (call : ParseCall) (a : Ast) (ts' : TokenStream),
      nestedInv call → parseGo fuel call = .ok (a, ts') → noNestedBJ a = true := by
  intro fuel
  induction fuel with
  | zero => intro call a ts' hinv h; simp [parseGo] at h
  | succ f ih =>
    intro call a ts' hinv h
    cases call with
    | expr ts minBp =>
      rw [parseGo] at h
      split at h
      · simp at h
      · rename_i left ts1 heq
        obtain ⟨⟨cmd, hcmd⟩, n1, hn1⟩ := parsePrimary_ok ts left ts1 heq
        refine ih (.loop left ts1 minBp) a ts' ⟨?_, ?_, ?_⟩ h
        · rw [hn1]
          exact noAdjAmps_drop n1 _ hinv
        · rw [hcmd]; rfl
        · rw [hcmd]; intro hbj; simp [isBJ] at hbj
    | loop left ts minBp =>
      obtain ⟨hadj, hnn, hbjpeek⟩ := hinv
      rw [parseGo] at h
      split at h
      · simp at h
        rw [← h.1]
        exact hnn
      · rename_i bp hbp
        split at h
        · simp at h
          rw [← h.1]
          exact hnn
        · cases hts : ts.tokens with
          | nil => rw [peek_nil ts hts] at hbp; simp [operatorBindingPower] at hbp
          | cons t rest =>
            simp only [nextToken_cons ts t rest hts] at h
            have hpeek : ts.peek = t.kind := peek_cons ts t rest hts
            have hadjts : noAdjAmps (t :: rest) = true := by rw [← hts]; exact hadj
            have hadjrest : noAdjAmps rest = true := noAdjAmps_tail t rest hadjts
            split at h
            any_goals simp at h
            -- semi, left = sequence seq
            · split at h
              · simp at h
              · rename_i right ts2 hexpr
                have hright : noNestedBJ right = true :=
                  ih (.expr ⟨rest, ts.eofPos⟩ bp) right ts2 hadjrest hexpr
                have hadj2 : noAdjAmps ts2.tokens = true :=
                  parseGo_noAdjAmps f (.expr ⟨rest, ts.eofPos⟩ bp) right ts2 hadjrest hexpr
                refine ih _ a ts' ?_ h
                refine ⟨hadj2, ?_, ?_⟩
                · simp only [noNestedBJ] at hnn ⊢
                  rw [noNestedBJList_append]
                  simp [hnn, hright, noNestedBJList]
                · intro hbj; simp [isBJ] at hbj
            -- semi, any other left
            · split at h
              · simp at h
              · rename_i right ts2 hexpr
                have hright : noNestedBJ right = true :=
                  ih (.expr ⟨rest, ts.eofPos⟩ bp) right ts2 hadjrest hexpr
                have hadj2 : noAdjAmps ts2.tokens = true :=
                  parseGo_noAdjAmps f (.expr ⟨rest, ts.eofPos⟩ bp) right ts2 hadjrest hexpr
                refine ih _ a ts' ?_ h
                refine ⟨hadj2, ?_, ?_⟩
                · simp [noNestedBJ, noNestedBJList, hnn, hright]
                · intro hbj; simp [isBJ] at hbj
            -- ampersand
            · rename_i lft xk xl heq
              have hpeekamp : ts.peek = TokenKind.ampersand := by rw [hpeek, heq]
              have hnotbj : isBJ lft = false := by
                cases hc : isBJ lft with
                | true => exact absurd hpeekamp (hbjpeek hc)
                | false => rfl
              refine ih _ a ts' ?_ h
              refine ⟨hadjrest, ?_, ?_⟩
              · simp [noNestedBJ, hnotbj, hnn]
              · intro _
                cases hrest : rest with
                | nil => rw [peek_nil ⟨[], ts.eofPos⟩ rfl]; simp
                | cons b r2 =>
                  rw [peek_cons ⟨b :: r2, ts.eofPos⟩ b r2 rfl]
                  rw [hrest] at hadjts
                  exact noAdjAmps_pair t b r2 hadjts heq
            -- pipe, left = pipeline cmds
            · split at h
              · simp at h
              · rename_i right ts2 hexpr
                split at h
                · simp at h
                · rename_i rightCmd hic
                  have hadj2 : noAdjAmps ts2.tokens = true :=
                    parseGo_noAdjAmps f (.expr ⟨rest, ts.eofPos⟩ bp) right ts2 hadjrest hexpr
                  refine ih _ a ts' ?_ h
                  refine ⟨hadj2, rfl, ?_⟩
                  intro hbj; simp [isBJ] at hbj
            -- pipe, any other left
            · split at h
              · simp at h
              · rename_i right ts2 hexpr
                split at h
                · simp at h
                · rename_i leftCmd hlc
                  split at h
                  · simp at h
                  · rename_i rightCmd hrc
                    have hadj2 : noAdjAmps ts2.tokens = true :=
                      parseGo_noAdjAmps f (.expr ⟨rest, ts.eofPos⟩ bp) right ts2 hadjrest hexpr
                    refine ih _ a ts' ?_ h
                    refine ⟨hadj2, rfl, ?_⟩
                    intro hbj; simp [isBJ] at hbj

/-- Transport of `noAmpTokens` across a successful parse step. -/
theorem parseGo_noAmpTokens (fuel : Nat) (call : ParseCall) (a : Ast) (ts' : TokenStream)
    (hamp : noAmpTokens call.stream.tokens)
    (h : parseGo fuel call = .ok (a, ts')) : noAmpTokens ts'.tokens := by
  obtain ⟨n, hn⟩ := parseGo_drop fuel call a ts' h
  rw [hn]
  exact noAmpTokens_drop n _ hamp

/-- Invariant for streams without any `Ampersand` token: the parser
never builds a `BackgroundJob` node, because only the `Ampersand` arm of
the operator loop constructs one. -/
def bjInv : ParseCall → Prop
  | .expr ts _ => noAmpTokens ts.tokens
  | .loop left ts _ => noAmpTokens ts.tokens ∧ noBJ left = true

theorem parseGo_noBJ :
    ∀ (fuel : Nat) (call : ParseCall) (a : Ast) (ts' : TokenStream),
      bjInv call → parseGo fuel call = .ok (a, ts') → noBJ a = true := by
  intro fuel
  induction fuel with
  | zero => intro call a ts' hinv h; simp [parseGo] at h
  | succ f ih =>
    intro call a ts' hinv h
    cases call with
    | expr ts minBp =>
      rw [parseGo] at h
      split at h
      · simp at h
      · rename_i left ts1 heq
        obtain ⟨⟨cmd, hcmd⟩, n1, hn1⟩ := parsePrimary_ok ts left ts1 heq
        refine ih (.loop left ts1 minBp) a ts' ⟨?_, ?_⟩ h
        · rw [hn1]
          exact noAmpTokens_drop n1 _ hinv
        · rw [hcmd]; rfl
    | loop left ts minBp =>
      obtain ⟨hamp, hnb⟩ := hinv
      rw [parseGo] at h
      split at h
      · simp at h
        rw [← h.1]
        exact hnb
      · rename_i bp hbp
        split at h
        · simp at h
          rw [← h.1]
          exact hnb
        · cases hts : ts.tokens with
          | nil => rw [peek_nil ts hts] at hbp; simp [operatorBindingPower] at hbp
          | cons t rest =>
            simp only [nextToken_cons ts t rest hts] at h
            have hampts : noAmpTokens (t :: rest) := by rw [← hts]; exact hamp
            have hamprest : noAmpTokens rest :=
              fun u hu => hampts u (List.mem_cons_of_mem t hu)
            split at h
            any_goals simp at h
            -- semi, left = sequence seq
            · split at h
              · simp at h
              · rename_i right ts2 hexpr
                have hright : noBJ right = true :=
                  ih (.expr ⟨rest, ts.eofPos⟩ bp) right ts2 hamprest hexpr
                have hamp2 : noAmpTokens ts2.tokens :=
                  parseGo_noAmpTokens f (.expr ⟨rest, ts.eofPos⟩ bp) right ts2 hamprest hexpr
                refine ih _ a ts' ?_ h
                refine ⟨hamp2, ?_⟩
                simp only [noBJ] at hnb ⊢
                rw [noBJList_append]
                simp [hnb, hright]
            -- semi, any other left
            · split at h
              · simp at h
              · rename_i right ts2 hexpr
                have hright : noBJ right = true :=
                  ih (.expr ⟨rest, ts.eofPos⟩ bp) right ts2 hamprest hexpr
                have hamp2 : noAmpTokens ts2.tokens :=
                  parseGo_noAmpTokens f (.expr ⟨rest, ts.eofPos⟩ bp) right ts2 hamprest hexpr
                refine ih _ a ts' ?_ h
                refine ⟨hamp2, ?_⟩
                simp [noBJ, noBJList, hnb, hright]
            -- ampersand: impossible, the stream has no Ampersand token
            · rename_i lft xk xl heq
              exact absurd heq (hampts t (List.mem_cons_self t rest))
            -- pipe, left = pipeline cmds
            · split at h
              · simp at h
              · rename_i right ts2 hexpr
                split at h
                · simp at h
                · rename_i rightCmd hic
                  have hamp2 : noAmpTokens ts2.tokens :=
                    parseGo_noAmpTokens f (.expr ⟨rest, ts.eofPos⟩ bp) right ts2 hamprest hexpr
                  refine ih _ a ts' ?_ h
                  exact ⟨hamp2, rfl⟩
            -- pipe, any other left
            · split at h
              · simp at h
              · rename_i right ts2 hexpr
                split at h
                · simp at h
                · rename_i leftCmd hlc
                  split at h
                  · simp at h
                  · rename_i rightCmd hrc
                    have hamp2 : noAmpTokens ts2.tokens :=
                      parseGo_noAmpTokens f (.expr ⟨rest, ts.eofPos⟩ bp) right ts2 hamprest hexpr
                    refine ih _ a ts' ?_ h
                    exact ⟨hamp2, rfl⟩

/-! ### Runner: `rush-runner/src/lib.rs` -/

/-- `Error` from `rush-runner/src/result.rs`: a wrapped `nix` errno. -/
inductive RunErr where
  | unix (errno : Int)
deriving DecidableEq, Repr

/-- `JobStatus` from `rush-runner/src/lib.rs`. -/
inductive JobStatus where
  | running
  | stopped
  | done (exitCode : Int)
deriving DecidableEq, Repr

/-- `Job` from `rush-runner/src/lib.rs`. -/
structure Job where
  id : Nat
  processGroupId : Int
  command : String
  status : JobStatus
  isForeground : Bool
deriving DecidableEq, Repr

/-- `nix::sys::wait::WaitStatus` as consumed by `update_job_statuses`:
the `Exited(_, code)`, `Signaled(_, sig, _)`, `Stopped(..)` and
`Continued(..)` arms keep only the payloads the source reads; `noChange`
covers `StillAlive` and `Err(_)`, both handled by the source's
`_ => {}` arm. -/
inductive WaitResult where
  | exited (exitCode : Int)
  | signaled (signal : Int)
  | stopped
  | continued
  | noChange
deriving DecidableEq, Repr

/-- The per-job body of the scan in `update_job_statuses`: a job already
in `Done` is skipped (`continue`); otherwise the non-blocking wait on
the job's process group id updates the status exactly as the source's
match on `WaitStatus`. -/
def updateJob (wait : Int → WaitResult) (j : Job) : Job :=
  match j.status with
  | .done _ => j
  | _ =>
    match wait j.processGroupId with
    | .exited exitCode => { j with status := .done exitCode }
    | .signaled signal => { j with status := .done (128 + signal) }
    | .stopped => { j with status := .stopped }
    | .continued => { j with status := .running }
    | .noChange => j

/-- `update_job_statuses` from `rush-runner/src/lib.rs`, at the level of
the job table: when the `JOBS_UPDATED` flag is clear nothing happens;
when it is set every job of the table is scanned and updated (the
iteration order of the hash map cannot matter: each entry is updated
independently). The completion lines printed afterwards do not change
the table and are not modelled. -/
def update_job_statuses (jobsUpdated : Bool) (wait : Int → WaitResult)
    (jobs : List Job) : List Job :=
  if !jobsUpdated then jobs
  else jobs.map (updateJob wait)

/-- One entry in the trace of the forks the shell process performs. -/
inductive Event where
  | forkedCommand (cmd : SimpleCommand)
  | forkedPipelineStage (cmd : SimpleCommand)
  | launchedBackgroundJob (id : Nat)
deriving DecidableEq, Repr

/-- The state of the shell process threaded through `execute`:
`forkResults` is an oracle giving the result of each successive
`fork(2)` call (`.error` is a failed fork, surfaced by the source's
`?`), `forkCount` counts the forks made so far, `nextJobId` is the
shared counter from `ExecCtx`, `jobs` the ids present in the job table,
`allocated` the ids handed out by the allocation block of
`execute_background_job`, and `events` the fork trace. Child-process
behaviour (exec, pipe wiring, process groups, waits) does not read or
write any of these fields and is outside this state. -/
structure ExecState where
  forkResults : Nat → Except RunErr Unit
  forkCount : Nat
  nextJobId : Nat
  jobs : List Nat
  allocated : List Nat
  events : List Event

/-- Draw the next `fork(2)` result from the oracle. -/
def popFork (st : ExecState) : Except RunErr Unit × ExecState :=
  (st.forkResults st.forkCount, { st with forkCount := st.forkCount + 1 })

/-- `execute_command`: fork once, the parent waits for that child and
reaps it; only the fork result and the event touch the shell state. -/
def execute_command (st : ExecState) (cmd : SimpleCommand) :
    Except RunErr Unit × ExecState :=
  let r := popFork st
  match r.1 with
  | .error e => (.error e, r.2)
  | .ok _ => (.ok (), { r.2 with events := r.2.events ++ [.forkedCommand cmd] })

/-- The per-stage fork loop of `execute_pipeline` (`for idx in
0..commands.len()`), with the `?` on `fork` propagating the first
failure. -/
def forkStages : ExecState → List SimpleCommand → Except RunErr Unit × ExecState
  | st, [] => (.ok (), st)
  | st, cmd :: rest =>
    let r := popFork st
    match r.1 with
    | .error e => (.error e, r.2)
    | .ok _ => forkStages { r.2 with events := r.2.events ++ [.forkedPipelineStage cmd] } rest

/-- `execute_pipeline`: an empty pipeline returns success at once;
otherwise argument pre-resolution and pipe creation (no shell-state
effect), the fork loop, the parent's descriptor close and wait loops
(again no shell-state effect). -/
def execute_pipeline (st : ExecState) (cmds : List SimpleCommand) :
    Except RunErr Unit × ExecState :=
  if cmds.isEmpty then (.ok (), st)
  else forkStages st cmds

/-- `execute_background_job`: the job id is taken and the counter
incremented before the fork, so a failed fork still consumes the id;
on success the parent registers the job (the child executes the wrapped
tree in its own process, with its own copy of memory — nothing of it
reaches this state) and prints the id/pid line. -/
def execute_background_job (st : ExecState) (ast : Ast) :
    Except RunErr Unit × ExecState :=
  let jobId := st.nextJobId
  let st1 := { st with nextJobId := jobId + 1, allocated := st.allocated ++ [jobId] }
  let r := popFork st1
  match r.1 with
  | .error e => (.error e, r.2)
  | .ok _ =>
    (.ok (), { r.2 with jobs := r.2.jobs ++ [jobId],
                        events := r.2.events ++ [.launchedBackgroundJob jobId] })

mutual

/-- `execute` from `rush-runner/src/lib.rs`, as it affects the shell
state: dispatch on the tree variant. -/
def execute : ExecState → Ast → Except RunErr Unit × ExecState
  | st, .command cmd => execute_command st cmd
  | st, .pipeline cmds => execute_pipeline st cmds
  | st, .backgroundJob ast => execute_background_job st ast
  | st, .sequence seq => executeSeq st seq

/-- The `for cmd in seq { execute(ctx, cmd)? }` loop of `execute`: run
each element in order, stopping at the first error. -/
def executeSeq : ExecState → List Ast → Except RunErr Unit × ExecState
  | st, [] => (.ok (), st)
  | st, a :: rest =>
    match execute st a with
    | (.ok _, st1) => executeSeq st1 rest
    | (.error e, st1) => (.error e, st1)

end

/-- `Rush::new`: the job table starts empty and `next_job_id` at 1
(`src/rush.rs`). -/
def initialState (forkResults : Nat → Except RunErr Unit) : ExecState :=
  ⟨forkResults, 0, 1, [], [], []⟩

/-- Relation between the shell state before and after one execution
step, for the id bookkeeping: the counter never decreases and the new
allocated/inserted ids form strictly increasing blocks lying in
`[nextJobId, nextJobId')`. -/
def idsStep (st st' : ExecState) : Prop :=
  st.nextJobId ≤ st'.nextJobId ∧
  (∃ la, st'.allocated = st.allocated ++ la ∧
     (∀ x ∈ la, st.nextJobId ≤ x ∧ x < st'.nextJobId) ∧ List.Chain' (· < ·) la) ∧
  (∃ lj, st'.jobs = st.jobs ++ lj ∧
     (∀ x ∈ lj, st.nextJobId ≤ x ∧ x < st'.nextJobId) ∧ List.Chain' (· < ·) lj)

theorem idsStep_refl (st : ExecState) : idsStep st st :=
  ⟨Nat.le_refl _, ⟨[], by simp, by simp, by simp⟩, ⟨[], by simp, by simp, by simp⟩⟩

theorem chain'_append_blocks {l1 l2 : List Nat} {lo mid hi : Nat}
    (h1 : ∀ x ∈ l1, lo ≤ x ∧ x < mid) (h2 : ∀ x ∈ l2, mid ≤ x ∧ x < hi)
    (c1 : List.Chain' (· < ·) l1) (c2 : List.Chain' (· < ·) l2) :
    List.Chain' (· < ·) (l1 ++ l2) := by
  rw [List.chain'_append]
  refine ⟨c1, c2, ?_⟩
  intro x hx y hy
  obtain ⟨hgl, rfl⟩ := List.mem_getLast?_eq_getLast hx
  have hx1 : l1.getLast hgl ∈ l1 := List.getLast_mem hgl
  have hy2 : y ∈ l2 := List.mem_of_mem_head? hy
  exact Nat.lt_of_lt_of_le (h1 _ hx1).2 (h2 y hy2).1

theorem idsStep_trans {st1 st2 st3 : ExecState}
    (a : idsStep st1 st2) (b : idsStep st2 st3) : idsStep st1 st3 := by
  obtain ⟨hle1, ⟨la1, hea1, hba1, hca1⟩, ⟨lj1, hej1, hbj1, hcj1⟩⟩ := a
  obtain ⟨hle2, ⟨la2, hea2, hba2, hca2⟩, ⟨lj2, hej2, hbj2, hcj2⟩⟩ := b
  refine ⟨Nat.le_trans hle1 hle2, ⟨la1 ++ la2, ?_, ?_, ?_⟩, ⟨lj1 ++ lj2, ?_, ?_, ?_⟩⟩
  · rw [hea2, hea1, List.append_assoc]
  · intro x hx
    rcases List.mem_append.mp hx with hx1 | hx2
    · exact ⟨(hba1 x hx1).1, Nat.lt_of_lt_of_le (hba1 x hx1).2 hle2⟩
    · exact ⟨Nat.le_trans hle1 (hba2 x hx2).1, (hba2 x hx2).2⟩
  · exact chain'_append_blocks hba1 hba2 hca1 hca2
  · rw [hej2, hej1, List.append_assoc]
  · intro x hx
    rcases List.mem_append.mp hx with hx1 | hx2
    · exact ⟨(hbj1 x hx1).1, Nat.lt_of_lt_of_le (hbj1 x hx1).2 hle2⟩
    · exact ⟨Nat.le_trans hle1 (hbj2 x hx2).1, (hbj2 x hx2).2⟩
  · exact chain'_append_blocks hbj1 hbj2 hcj1 hcj2

/-- `popFork` leaves all id-related fields unchanged. -/
theorem popFork_ids (st : ExecState) :
    (popFork st).2.nextJobId = st.nextJobId ∧
    (popFork st).2.allocated = st.allocated ∧
    (popFork st).2.jobs = st.jobs := ⟨rfl, rfl, rfl⟩

theorem execute_command_idsStep (st : ExecState) (cmd : SimpleCommand) :
    idsStep st (execute_command st cmd).2 := by
  rw [execute_command]
  cases hr : (popFork st).1 <;> simp [hr, idsStep_refl] <;> exact idsStep_refl st

theorem forkStages_idsStep (l : List SimpleCommand) :
    ∀ st : ExecState, idsStep st (forkStages st l).2 := by
  induction l with
  | nil => intro st; exact idsStep_refl st
  | cons cmd rest ih =>
    intro st
    rw [forkStages]
    cases hr : (popFork st).1 with
    | error e => exact idsStep_refl st
    | ok u =>
      have h := ih { (popFork st).2 with
        events := (popFork st).2.events ++ [.forkedPipelineStage cmd] }
      exact h

theorem execute_pipeline_idsStep (st : ExecState) (cmds : List SimpleCommand) :
    idsStep st (execute_pipeline st cmds).2 := by
  rw [execute_pipeline]
  by_cases hc : cmds.isEmpty <;> simp [hc]
  · exact idsStep_refl st
  · exact forkStages_idsStep cmds st

theorem execute_background_job_idsStep (st : ExecState) (ast : Ast) :
    idsStep st (execute_background_job st ast).2 := by
  simp only [execute_background_job, popFork]
  cases hr : st.forkResults st.forkCount with
  | error e =>
    simp only [hr]
    refine ⟨Nat.le_succ _, ⟨[st.nextJobId], rfl, ?_, by simp⟩, ⟨[], by simp, by simp, by simp⟩⟩
    intro x hx
    simp at hx
    subst hx
    exact ⟨Nat.le_refl _, by simp⟩
  | ok u =>
    simp only [hr]
    refine ⟨Nat.le_succ _, ⟨[st.nextJobId], rfl, ?_, by simp⟩,
      ⟨[st.nextJobId], rfl, ?_, by simp⟩⟩ <;>
    · intro x hx
      simp at hx
      subst hx
      exact ⟨Nat.le_refl _, by simp⟩

mutual

theorem execute_idsStep (st : ExecState) (a : Ast) : idsStep st (execute st a).2 := by
  cases a with
  | command cmd => exact execute_command_idsStep st cmd
  | pipeline cmds => exact execute_pipeline_idsStep st cmds
  | backgroundJob ast => exact execute_background_job_idsStep st ast
  | sequence seq => exact executeSeq_idsStep st seq

theorem executeSeq_idsStep (st : ExecState) (l : List Ast) : idsStep st (executeSeq st l).2 := by
  cases l with
  | nil => exact idsStep_refl st
  | cons a rest =>
    have h1 := execute_idsStep st a
    rw [executeSeq]
    cases hr : execute st a with
    | mk r st1 =>
      rw [hr] at h1
      cases r with
      | ok u => exact idsStep_trans h1 (executeSeq_idsStep st1 rest)
      | error e => exact h1

end

/-- When a whole sequence succeeds, every element `i` was executed with
the state produced by the elements before it, and succeeded. -/
theorem executeSeq_ok_steps :
    ∀ (l : List Ast) (st st' : ExecState), executeSeq st l = (.ok (), st') →
      ∀ i, (hi : i < l.length) → ∃ sti sti',
        executeSeq st (l.take i) = (.ok (), sti) ∧ execute sti l[i] = (.ok (), sti') := by
  intro l
  induction l with
  | nil => intro st st' h i hi; exact absurd hi (by simp)
  | cons a rest ih =>
    intro st st' h i hi
    rw [executeSeq] at h
    cases hr : execute st a with
    | mk r st1 =>
      rw [hr] at h
      cases r with
      | error e => simp at h
      | ok u =>
        cases u
        cases i with
        | zero => exact ⟨st, st1, rfl, by simpa using hr⟩
        | succ j =>
          have hj : j < rest.length := by simpa using hi
          obtain ⟨sti, sti', h1, h2⟩ := ih st1 st' h j hj
          refine ⟨sti, sti', ?_, ?_⟩
          · rw [List.take_succ_cons, executeSeq, hr]
            exact h1
          · simpa using h2

/-- When a sequence fails with `e`, there is an element `i` such that
all elements before `i` succeeded, element `i`'s execution call returned
`e`, and the final state is exactly the state after that call — nothing
past element `i` ran. -/
theorem executeSeq_error_step :
    ∀ (l : List Ast) (st st' : ExecState) (e : RunErr), executeSeq st l = (.error e, st') →
      ∃ i, ∃ hi : i < l.length, ∃ sti,
        executeSeq st (l.take i) = (.ok (), sti) ∧ execute sti l[i] = (.error e, st') := by
  intro l
  induction l with
  | nil => intro st st' e h; simp [executeSeq] at h
  | cons a rest ih =>
    intro st st' e h
    rw [executeSeq] at h
    cases hr : execute st a with
    | mk r st1 =>
      rw [hr] at h
      cases r with
      | error e0 =>
        simp at h
        refine ⟨0, by simp, st, rfl, ?_⟩
        rw [← h.1, ← h.2]
        simpa using hr
      | ok u =>
        cases u
        obtain ⟨j, hj, sti, h1, h2⟩ := ih st1 st' e h
        refine ⟨j + 1, by simpa using hj, sti, ?_, ?_⟩
        · rw [List.take_succ_cons, executeSeq, hr]
          exact h1
        · simpa using h2

/-! ### All-atom streams (claim C10) -/

theorem takeArgsList_atoms (spans : List Span) (t : Token) (h : t.kind ≠ TokenKind.atom) :
    takeArgsList ((spans.map fun sp => Token.mk .atom sp) ++ [t]) = (spans, [t]) := by
  induction spans with
  | nil => simp [takeArgsList, h]
  | cons sp rest ih => simp [takeArgsList, ih]

/-! ### The claims -/

/-- Claim C1: the claim says parsing `"a|b|c"` succeeds with the flat
`Pipeline([a,b,c])`. The code disagrees: the operator loop recurses at
the same binding power with a strict `<` break, so the right operand of
the first `|` parses all of `b|c` into a `Pipeline`, which then fails
`into_command` — the parse returns `ExpectedCommand(Atom)` instead of
succeeding. This theorem evaluates lexer and parser at that input (the
token kinds are Atom/Pipe/Atom/Pipe/Atom/Eof exactly as the claim
requires). -/
theorem c1_pipe_chain_parse_fails :
    lexStream ['a', '|', 'b', '|', 'c'] =
      ⟨[⟨TokenKind.atom, ⟨0, 5⟩⟩, ⟨TokenKind.pipe, ⟨1, 1⟩⟩, ⟨TokenKind.atom, ⟨2, 5⟩⟩,
        ⟨TokenKind.pipe, ⟨3, 3⟩⟩, ⟨TokenKind.atom, ⟨4, 5⟩⟩, ⟨TokenKind.eof, ⟨5, 5⟩⟩], 5⟩ ∧
    parse (lexStream ['a', '|', 'b', '|', 'c']) = .error (.expectedCommand TokenKind.atom) :=
  ⟨rfl, rfl⟩

/-- Claim C2: the claim says `"a;b;c"` parses to the flat
`Sequence([Command(a), Command(b), Command(c)])` and nesting never
happens. The code disagrees: the equal-binding-power recursion makes the
first `;`'s right operand swallow `b;c`, so the result is the nested
`Sequence([Command(a), Sequence([Command(b), Command(c)])])` — the
flatten arm of the loop is unreachable. Evaluated end to end here. -/
theorem c2_semi_chain_parses_nested :
    parse (lexStream ['a', ';', 'b', ';', 'c'])
      = .ok (.sequence [.command ⟨⟨0, 5⟩, []⟩,
          .sequence [.command ⟨⟨2, 5⟩, []⟩, .command ⟨⟨4, 5⟩, []⟩]]) :=
  rfl

/-- Claim C3: no source string ever lexes to an `Ampersand` token, and
consequently parsing any lexed stream never yields a tree containing a
`BackgroundJob` node. -/
theorem c3_lexer_no_ampersand_no_background (source : List Char) :
    (∀ t ∈ lex source, t.kind ≠ TokenKind.ampersand) ∧
    (∀ ast, parse (lexStream source) = .ok ast → noBJ ast = true) := by
  have hamp : ∀ t ∈ lex source, t.kind ≠ TokenKind.ampersand := by
    intro t ht
    rw [lex] at ht
    by_cases hs : source = []
    · simp [hs] at ht
    · rw [if_neg hs] at ht
      rcases List.mem_append.mp ht with h1 | h2
      · rcases lexLoop_kinds source _ _ t h1 with h | h | h <;> simp [h]
      · simp at h2
        rw [h2]
        simp
  refine ⟨hamp, ?_⟩
  intro ast hp
  rw [parse] at hp
  cases hg : parseGo (2 * (lexStream source).tokens.length + 2) (.expr (lexStream source) 0) with
  | error e => rw [hg] at hp; simp at hp
  | ok v =>
    obtain ⟨a, ts'⟩ := v
    rw [hg] at hp
    simp at hp
    rw [← hp]
    exact parseGo_noBJ _ (.expr (lexStream source) 0) a ts' hamp hg

/-- Witness for C3 at the concrete source `"ab"`: its lexed stream has
no ampersand (checked on its first token) and its parse result holds no
`BackgroundJob`. -/
theorem c3_witness :
    (⟨TokenKind.atom, ⟨0, 2⟩⟩ : Token).kind ≠ TokenKind.ampersand ∧
    noBJ (.command ⟨⟨0, 2⟩, []⟩) = true :=
  ⟨(c3_lexer_no_ampersand_no_background ['a', 'b']).1 ⟨TokenKind.atom, ⟨0, 2⟩⟩ (by decide),
   (c3_lexer_no_ampersand_no_background ['a', 'b']).2 (.command ⟨⟨0, 2⟩, []⟩) rfl⟩

/-- Claim C4: the claim says every `Atom` token's slice of the source is
an unbroken run of non-delimiter characters. The code disagrees: on
`"a b"` the whitespace is not skipped and `take_while`'s `None` fallback
returns `source.len()`, so the first token is an `Atom` with span
`[0, 3)` whose slice `"a b"` contains the delimiter `' '`. -/
theorem c4_atom_span_contains_delimiter :
    lex ['a', ' ', 'b'] =
      [⟨TokenKind.atom, ⟨0, 3⟩⟩, ⟨TokenKind.atom, ⟨1, 3⟩⟩, ⟨TokenKind.eof, ⟨3, 3⟩⟩] ∧
    (Span.mk 0 3).slice ['a', ' ', 'b'] = ['a', ' ', 'b'] ∧
    ((Span.mk 0 3).slice ['a', ' ', 'b']).any is_delimiter = true :=
  ⟨rfl, rfl, rfl⟩

/-- Counterexample for C5 at the empty source: `lex ""` returns the
empty token list (the source's early return), so the produced sequence
does not end with an `EndOfInput` token. -/
theorem c5_counterexample_empty_source :
    lex [] = [] ∧
    ¬ ∃ (pre : List Token) (t : Token), lex [] = pre ++ [t] ∧ t.kind = TokenKind.eof := by
  refine ⟨rfl, ?_⟩
  rintro ⟨pre, t, hlex, -⟩
  rw [show lex [] = [] from rfl] at hlex
  simp at hlex

/-- Claim C5 as amended: for every NON-EMPTY source string the token
sequence produced by `Lexer::lex` ends with exactly one `Eof` token (at
the byte length of the source) and no `Eof` token appears elsewhere. -/
theorem c5_nonempty_single_trailing_eof (source : List Char) (h : source ≠ []) :
    ∃ pre : List Token,
      lex source = pre ++ [⟨TokenKind.eof, ⟨byteLen source, byteLen source⟩⟩] ∧
      ∀ t ∈ pre, t.kind ≠ TokenKind.eof := by
  refine ⟨lexLoop source (charIndices source 0).length (charIndices source 0), ?_, ?_⟩
  · rw [lex, if_neg h]
  · intro t ht
    rcases lexLoop_kinds source _ _ t ht with hk | hk | hk <;> simp [hk]

/-- Witness for C5 at the one-character source `"a"`. -/
theorem c5_witness :
    ∃ pre : List Token,
      lex ['a'] = pre ++ [⟨TokenKind.eof, ⟨byteLen ['a'], byteLen ['a']⟩⟩] ∧
      ∀ t ∈ pre, t.kind ≠ TokenKind.eof :=
  c5_nonempty_single_trailing_eof ['a'] (by simp)

/-- Counterexample for C6: on the token stream Atom ∙ Ampersand ∙
Ampersand ∙ Eof the parser succeeds and returns a `BackgroundJob` whose
immediate child is another `BackgroundJob`. -/
theorem c6_counterexample_double_ampersand :
    parse ⟨[⟨TokenKind.atom, ⟨0, 1⟩⟩, ⟨TokenKind.ampersand, ⟨1, 2⟩⟩,
            ⟨TokenKind.ampersand, ⟨2, 3⟩⟩, ⟨TokenKind.eof, ⟨3, 3⟩⟩], 3⟩
      = .ok (.backgroundJob (.backgroundJob (.command ⟨⟨0, 1⟩, []⟩))) ∧
    noNestedBJ (.backgroundJob (.backgroundJob (.command ⟨⟨0, 1⟩, []⟩))) = false :=
  ⟨rfl, rfl⟩

/-- Claim C6 as amended: for every token stream in which no `Ampersand`
token is immediately followed by another `Ampersand` token, a successful
parse never contains a `BackgroundJob` whose immediate child is another
`BackgroundJob`. (Streams produced by this lexer satisfy the proviso
vacuously, having no `Ampersand` tokens at all.) -/
theorem c6_no_nested_background_without_adjacent_ampersands
    (ts : TokenStream) (ast : Ast) (hadj : noAdjAmps ts.tokens = true)
    (h : parse ts = .ok ast) : noNestedBJ ast = true := by
  rw [parse] at h
  cases hg : parseGo (2 * ts.tokens.length + 2) (.expr ts 0) with
  | error e => rw [hg] at h; simp at h
  | ok v =>
    obtain ⟨a, ts'⟩ := v
    rw [hg] at h
    simp at h
    rw [← h]
    exact parseGo_noNestedBJ _ (.expr ts 0) a ts' hadj hg

/-- Witness for C6 on the stream of `"a&"` (one ampersand, none
adjacent): the parse succeeds and the result has no directly nested
`BackgroundJob`. -/
theorem c6_witness :
    noNestedBJ (.backgroundJob (.command ⟨⟨0, 1⟩, []⟩)) = true :=
  c6_no_nested_background_without_adjacent_ampersands
    ⟨[⟨TokenKind.atom, ⟨0, 1⟩⟩, ⟨TokenKind.ampersand, ⟨1, 2⟩⟩, ⟨TokenKind.eof, ⟨2, 2⟩⟩], 2⟩
    (.backgroundJob (.command ⟨⟨0, 1⟩, []⟩)) (by decide) rfl

/-- Claim C10: a non-empty stream of `Atom` tokens followed by the
end-of-input marker parses to a single `Command` whose program is the
first atom's span and whose argument count is the atom count minus
one. -/
theorem c10_all_atom_stream_single_command (s0 : Span) (spans : List Span) (eofPos : Nat) :
    parse ⟨((s0 :: spans).map fun sp => Token.mk .atom sp)
             ++ [⟨TokenKind.eof, ⟨eofPos, eofPos⟩⟩], eofPos⟩
      = .ok (.command ⟨s0, spans⟩) ∧
    spans.length = (s0 :: spans).length - 1 := by
  refine ⟨?_, by simp⟩
  set eofTok : Token := ⟨TokenKind.eof, ⟨eofPos, eofPos⟩⟩ with heof
  set ts0 : TokenStream :=
    ⟨((s0 :: spans).map fun sp => Token.mk .atom sp) ++ [eofTok], eofPos⟩ with hts0
  have hcons : ts0.tokens
      = ⟨TokenKind.atom, s0⟩ :: ((spans.map fun sp => Token.mk .atom sp) ++ [eofTok]) := by
    simp [hts0]
  have hargs := takeArgsList_atoms spans eofTok (by simp [heof])
  have hpc : parseCommand ts0 = .ok (⟨s0, spans⟩, ⟨[eofTok], eofPos⟩) := by
    rw [parseCommand, nextToken_cons ts0 _ _ hcons]
    simp [hargs, hts0]
  have hpp : parsePrimary ts0 = .ok (.command ⟨s0, spans⟩, ⟨[eofTok], eofPos⟩) := by
    rw [parsePrimary, peek_cons ts0 _ _ hcons]
    simp [hpc]
  have hloop : ∀ f : Nat, parseGo (f + 1) (.loop (.command ⟨s0, spans⟩) ⟨[eofTok], eofPos⟩ 0)
      = .ok (.command ⟨s0, spans⟩, ⟨[eofTok], eofPos⟩) := by
    intro f
    rw [parseGo, peek_cons ⟨[eofTok], eofPos⟩ eofTok [] rfl]
    simp [heof, operatorBindingPower]
  have hgo : parseGo (2 * ts0.tokens.length + 2) (.expr ts0 0)
      = .ok (.command ⟨s0, spans⟩, ⟨[eofTok], eofPos⟩) := by
    rw [show 2 * ts0.tokens.length + 2 = (2 * ts0.tokens.length + 1) + 1 from rfl,
      parseGo, hpp]
    exact hloop (2 * ts0.tokens.length)
  rw [parse, hgo]

/-- Claim C8: with the notification flag set, `update_job_statuses`
leaves every already-`Done` job unchanged and maps every other job's
wait result exactly as: exit `c` ↦ `Done c`, signal `s` ↦
`Done (128 + s)`, stopped ↦ `Stopped`, continued ↦ `Running`, no change
↦ status untouched. -/
theorem c8_update_job_statuses_mapping (wait : Int → WaitResult) (jobs : List Job)
    (i : Nat) (j : Job) (h : jobs[i]? = some j) :
    ∃ j', (update_job_statuses true wait jobs)[i]? = some j' ∧
      ((∃ c, j.status = .done c) → j' = j) ∧
      ((∀ c, j.status ≠ .done c) →
        j' = { j with status :=
          (match wait j.processGroupId with
           | .exited exitCode => .done exitCode
           | .signaled signal => .done (128 + signal)
           | .stopped => .stopped
           | .continued => .running
           | .noChange => j.status) }) := by
  refine ⟨updateJob wait j, ?_, ?_, ?_⟩
  · rw [update_job_statuses]
    simp [List.getElem?_map, h]
  · rintro ⟨c, hc⟩
    simp [updateJob, hc]
  · intro hnd
    cases hs : j.status with
    | done c => exact absurd hs (hnd c)
    | running =>
      simp only [updateJob, hs]
      cases hw : wait j.processGroupId <;> simp [hw, hs] <;> rw [← hs]
    | stopped =>
      simp only [updateJob, hs]
      cases hw : wait j.processGroupId <;> simp [hw, hs] <;> rw [← hs]

/-- Witness data for C8: one running job with process group 5, a wait
oracle reporting a normal exit with code 0 for it. -/
def w8wait : Int → WaitResult := fun pg => if pg = 5 then .exited 0 else .noChange

def w8jobs : List Job := [⟨1, 5, "sleep", .running, false⟩]

/-- Witness for C8: applying the mapping theorem at the concrete table
shows the job transitions to `Done 0`. -/
theorem c8_witness :
    (update_job_statuses true w8wait w8jobs)[0]? = some ⟨1, 5, "sleep", .done 0, false⟩ := by
  obtain ⟨j', hj', -, hnot⟩ :=
    c8_update_job_statuses_mapping w8wait w8jobs 0 ⟨1, 5, "sleep", .running, false⟩ rfl
  rw [hj', hnot (by intro c hc; cases hc)]
  rfl

/-- Claim C9: executing a `Sequence` runs its elements in written order
— element `i` starts from exactly the state produced by elements
`0..i-1` — and an error from element `i` is returned at once with the
state exactly as that element's call left it, so no later element
runs. -/
theorem c9_sequence_in_order_error_stops (st : ExecState) (l : List Ast) :
    (∀ st', execute st (.sequence l) = (.ok (), st') →
       ∀ i, (hi : i < l.length) → ∃ sti sti',
         executeSeq st (l.take i) = (.ok (), sti) ∧ execute sti l[i] = (.ok (), sti')) ∧
    (∀ e st', execute st (.sequence l) = (.error e, st') →
       ∃ i, ∃ hi : i < l.length, ∃ sti,
         executeSeq st (l.take i) = (.ok (), sti) ∧ execute sti l[i] = (.error e, st')) :=
  ⟨fun st' h => executeSeq_ok_steps l st st' h,
   fun e st' h => executeSeq_error_step l st st' e h⟩

/-- Witness data for C9: three commands, with the second `fork(2)` (the
one performed by the second command) failing with errno 7. -/
def w9forks : Nat → Except RunErr Unit := fun n => if n = 1 then .error (.unix 7) else .ok ()

def w9l : List Ast := [.command ⟨⟨0, 1⟩, []⟩, .command ⟨⟨2, 3⟩, []⟩, .command ⟨⟨4, 5⟩, []⟩]

/-- Witness for C9: on that input the error branch of the theorem
produces the failing element index. -/
theorem c9_witness :
    ∃ i, ∃ hi : i < w9l.length, ∃ sti,
      executeSeq (initialState w9forks) (w9l.take i) = (.ok (), sti) ∧
      execute sti w9l[i]
        = (.error (.unix 7), (execute (initialState w9forks) (.sequence w9l)).2) :=
  (c9_sequence_in_order_error_stops (initialState w9forks) w9l).2 (.unix 7)
    (execute (initialState w9forks) (.sequence w9l)).2 rfl

end Rush
